import Mathlib

/-!
Verification development for the market-feed-cpp repository.

Shallow embedding of the core components:
* `book.OrderBook` — per-symbol limit order book (src/src/book/order_book.cpp,
  src/include/order_book.hpp); the bid ladder is an association list sorted by
  descending price (std::map with std::greater), the ask ladder sorted by
  ascending price, and the order map an association list keyed by order id
  (std::unordered_map; only lookup/size are observable).  uint32_t level
  arithmetic is modelled modulo 2^32.
* `core.RingBuffer` — SPSC ring buffer (src/include/ring_buffer.hpp), executed
  sequentially (one operation at a time).
* `feed.Decoder` — memory-mapped binary decoder (src/src/feed/decoder.cpp);
  the mapped file is a byte list, the monotonic clock an oracle `Nat → Nat`
  applied to a count of clock reads carried in the state.
* `feed.Symbol` (src/include/messages.hpp) and
  `publish.format_price` (src/src/publish/publisher.cpp); the IEEE-754
  binary64 arithmetic of `format_price` is modelled exactly over ℚ with
  round-to-nearest-even.
-/

namespace book

/-- Side of the order book (order_book.hpp). -/
inductive Side where
  | BUY
  | SELL
deriving DecidableEq, Repr

/-- Per-order information (order_book.hpp `OrderInfo`). -/
structure OrderInfo where
  side : Side
  price : Int
  quantity : Nat
deriving DecidableEq, Repr

/-- Top-of-book snapshot (order_book.hpp `TopOfBook`); zeroed defaults. -/
structure TopOfBook where
  best_bid_px : Int := 0
  bid_sz : Nat := 0
  best_ask_px : Int := 0
  ask_sz : Nat := 0
deriving DecidableEq, Repr

/-- The order book state: bids (sorted descending by price), asks (sorted
ascending by price) and the order map (association list, unique keys). -/
structure OrderBook where
  bids : List (Int × Nat)
  asks : List (Int × Nat)
  orders : List (Nat × OrderInfo)
deriving DecidableEq, Repr

/-- The default-constructed empty book. -/
def OrderBook.init : OrderBook := ⟨[], [], []⟩

/-- uint32_t addition (`level += quantity`): wraps modulo 2^32. -/
def add_u32 (a b : Nat) : Nat := (a + b) % 2 ^ 32

/-- uint32_t subtraction (`level -= quantity`): wraps modulo 2^32
(faithful for operands below 2^32). -/
def sub_u32 (a b : Nat) : Nat := if b ≤ a then a - b else a + 2 ^ 32 - b

/-- `std::map::operator[] += q` on a ladder sorted by the strict
comparator `lt`: find the key, add (mod 2^32, uint32_t) if present,
otherwise insert `0 + q` at the sorted position. -/
def ladder_add (lt : Int → Int → Bool) : List (Int × Nat) → Int → Nat → List (Int × Nat)
  | [], p, q => [(p, add_u32 0 q)]
  | (p', v) :: t, p, q =>
    if p = p' then (p', add_u32 v q) :: t
    else if lt p p' then (p, add_u32 0 q) :: (p', v) :: t
    else (p', v) :: ladder_add lt t p q

/-- `find` + `-=` + erase-if-zero on a ladder (OrderBook::remove_from_level
body for one side): no-op when the price is absent. -/
def ladder_remove : List (Int × Nat) → Int → Nat → List (Int × Nat)
  | [], _, _ => []
  | (p', v) :: t, p, q =>
    if p = p' then
      if sub_u32 v q = 0 then t else (p', sub_u32 v q) :: t
    else (p', v) :: ladder_remove t p q

/-- Erase the first binding of a key from an association list
(map/unordered_map `erase` at a found iterator). -/
def eraseKey : List (Nat × OrderInfo) → Nat → List (Nat × OrderInfo)
  | [], _ => []
  | (k, v) :: t, id => if k = id then t else (k, v) :: eraseKey t id

/-- Replace the value bound to a key (in-place mutation through a found
iterator). -/
def updateKey : List (Nat × OrderInfo) → Nat → OrderInfo → List (Nat × OrderInfo)
  | [], _, _ => []
  | (k, v) :: t, id, o => if k = id then (k, o) :: t else (k, v) :: updateKey t id o

/-- OrderBook::add_to_level. -/
def OrderBook.add_to_level (b : OrderBook) (side : Side) (price : Int) (quantity : Nat) :
    OrderBook :=
  match side with
  | Side.BUY => { b with bids := ladder_add (fun x y => y < x) b.bids price quantity }
  | Side.SELL => { b with asks := ladder_add (fun x y => x < y) b.asks price quantity }

/-- OrderBook::remove_from_level. -/
def OrderBook.remove_from_level (b : OrderBook) (side : Side) (price : Int) (quantity : Nat) :
    OrderBook :=
  match side with
  | Side.BUY => { b with bids := ladder_remove b.bids price quantity }
  | Side.SELL => { b with asks := ladder_remove b.asks price quantity }

/-- OrderBook::has_crossing: a BUY crosses iff the ask ladder is non-empty and
price ≥ best (first, lowest) ask; a SELL crosses iff the bid ladder is
non-empty and price ≤ best (first, highest) bid. -/
def OrderBook.has_crossing (b : OrderBook) (side : Side) (price : Int) : Bool :=
  match side with
  | Side.BUY =>
    match b.asks with
    | [] => false
    | (ap, _) :: _ => decide (ap ≤ price)
  | Side.SELL =>
    match b.bids with
    | [] => false
    | (bp, _) :: _ => decide (price ≤ bp)

/-- OrderBook::on_add. -/
def OrderBook.on_add (b : OrderBook) (order_id : Nat) (side : Side) (price : Int)
    (quantity : Nat) : Bool × OrderBook :=
  if (b.orders.lookup order_id).isSome then (false, b)
  else if b.has_crossing side price then (false, b)
  else
    let b1 := { b with orders := (order_id, OrderInfo.mk side price quantity) :: b.orders }
    (true, b1.add_to_level side price quantity)

/-- OrderBook::on_modify. -/
def OrderBook.on_modify (b : OrderBook) (order_id : Nat) (new_price : Int)
    (new_quantity : Nat) : Bool × OrderBook :=
  match b.orders.lookup order_id with
  | none => (false, b)
  | some o =>
    if new_quantity = 0 then (false, b)
    else if b.has_crossing o.side new_price then (false, b)
    else
      let b1 := b.remove_from_level o.side o.price o.quantity
      let b2 := { b1 with
        orders := updateKey b1.orders order_id { o with price := new_price, quantity := new_quantity } }
      (true, b2.add_to_level o.side new_price new_quantity)

/-- OrderBook::on_execute. -/
def OrderBook.on_execute (b : OrderBook) (order_id : Nat) (exec_quantity : Nat) :
    Bool × OrderBook :=
  match b.orders.lookup order_id with
  | none => (false, b)
  | some o =>
    if o.quantity < exec_quantity then (false, b)
    else
      let b1 := b.remove_from_level o.side o.price exec_quantity
      let b2 :=
        if o.quantity - exec_quantity = 0 then { b1 with orders := eraseKey b1.orders order_id }
        else { b1 with orders := updateKey b1.orders order_id { o with quantity := o.quantity - exec_quantity } }
      (true, b2)

/-- OrderBook::on_delete. -/
def OrderBook.on_delete (b : OrderBook) (order_id : Nat) : Bool × OrderBook :=
  match b.orders.lookup order_id with
  | none => (false, b)
  | some o =>
    let b1 := b.remove_from_level o.side o.price o.quantity
    (true, { b1 with orders := eraseKey b1.orders order_id })

/-- OrderBook::top_of_book. -/
def OrderBook.top_of_book (b : OrderBook) : TopOfBook :=
  let t1 : TopOfBook :=
    match b.bids with
    | [] => {}
    | (bp, bq) :: _ => { best_bid_px := bp, bid_sz := bq }
  match b.asks with
  | [] => t1
  | (ap, aq) :: _ => { t1 with best_ask_px := ap, ask_sz := aq }

/-- OrderBook::order_count. -/
def OrderBook.order_count (b : OrderBook) : Nat := b.orders.length

/-- OrderBook::empty. -/
def OrderBook.isEmptyBook (b : OrderBook) : Bool := b.orders.isEmpty

/-- Best bid price, if any (price of the first entry of the descending bid
ladder). -/
def OrderBook.bestBidPx (b : OrderBook) : Option Int := b.bids.head?.map Prod.fst

/-- Best ask price, if any (price of the first entry of the ascending ask
ladder). -/
def OrderBook.bestAskPx (b : OrderBook) : Option Int := b.asks.head?.map Prod.fst

end book

namespace core

/-- SPSC ring buffer state (ring_buffer.hpp).  `buf` is the backing slot
array (length = capacity); `head` is the consumer index, `tail` the producer
index, both stored masked (they are updated with `(i + 1) &&& mask`). -/
structure RingBuffer (V : Type) where
  capacity : Nat
  mask : Nat
  buf : List V
  head : Nat
  tail : Nat
deriving DecidableEq, Repr

/-- RingBuffer constructor: `mask_ = capacity - 1`, value-initialized slots,
head = tail = 0. -/
def RingBuffer.mk0 (V : Type) [Inhabited V] (capacity : Nat) : RingBuffer V :=
  ⟨capacity, capacity - 1, List.replicate capacity default, 0, 0⟩

/-- size_t subtraction `tail - head` (wraps modulo 2^64). -/
def sub_u64 (a b : Nat) : Nat := (a + 2 ^ 64 - b) % 2 ^ 64

/-- RingBuffer::try_push: fail when `(tail+1) & mask == head`, else write
`buf[tail]` and publish the new tail. -/
def RingBuffer.try_push {V : Type} (rb : RingBuffer V) (v : V) : Bool × RingBuffer V :=
  let next := (rb.tail + 1) &&& rb.mask
  if next = rb.head then (false, rb)
  else (true, { rb with buf := rb.buf.set rb.tail v, tail := next })

/-- RingBuffer::try_pop: fail when `head == tail`, else read `buf[head]` and
advance the head. -/
def RingBuffer.try_pop {V : Type} [Inhabited V] (rb : RingBuffer V) :
    Option V × RingBuffer V :=
  if rb.head = rb.tail then (none, rb)
  else (some (rb.buf.getD rb.head default), { rb with head := (rb.head + 1) &&& rb.mask })

/-- RingBuffer::size: `(tail - head) & mask` with size_t subtraction. -/
def RingBuffer.size {V : Type} (rb : RingBuffer V) : Nat :=
  sub_u64 rb.tail rb.head &&& rb.mask

/-- RingBuffer::empty: `head == tail`. -/
def RingBuffer.isEmptyRB {V : Type} (rb : RingBuffer V) : Bool := rb.head == rb.tail

/-- Structural well-formedness of a ring buffer state of capacity 2^k:
established by the constructor and preserved by the operations. -/
def RingInv {V : Type} (k : Nat) (rb : RingBuffer V) : Prop :=
  rb.capacity = 2 ^ k ∧ rb.mask = 2 ^ k - 1 ∧ rb.buf.length = 2 ^ k ∧
    rb.head < 2 ^ k ∧ rb.tail < 2 ^ k

instance {V : Type} (k : Nat) (rb : RingBuffer V) : Decidable (RingInv k rb) := by
  unfold RingInv; infer_instance

/-- Abstraction function: the FIFO contents of the ring, from `head`
(oldest) to `tail` (exclusive). -/
def queueOf {V : Type} [Inhabited V] (rb : RingBuffer V) : List V :=
  (List.range ((rb.tail + rb.capacity - rb.head) % rb.capacity)).map
    (fun i => rb.buf.getD ((rb.head + i) % rb.capacity) default)

/-- One sequential operation of the SPSC regime: a producer push or a consumer pop. -/
inductive Op (V : Type) where
  | push (v : V)
  | pop
deriving DecidableEq, Repr

/-- Run a sequence of operations; returns the final state, the values of the
successful (accepted) pushes in order, and the values returned by the
successful pops in order. -/
def runOps {V : Type} [Inhabited V] (rb : RingBuffer V) : List (Op V) →
    RingBuffer V × List V × List V
  | [] => (rb, [], [])
  | Op.push v :: rest =>
    let r := rb.try_push v
    let t := runOps r.2 rest
    (t.1, (if r.1 then v :: t.2.1 else t.2.1), t.2.2)
  | Op.pop :: rest =>
    let r := rb.try_pop
    let t := runOps r.2 rest
    (t.1, t.2.1, (match r.1 with | some v => v :: t.2.2 | none => t.2.2))

/-- Push each value of a list in turn, collecting each try_push result. -/
def pushAll {V : Type} (rb : RingBuffer V) : List V → List Bool × RingBuffer V
  | [] => ([], rb)
  | v :: rest =>
    let r := rb.try_push v
    let t := pushAll r.2 rest
    (r.1 :: t.1, t.2)

end core

namespace feed

/-- Event type tag (messages.hpp `EventType`). -/
inductive EventType where
  | ADD_ORDER
  | MODIFY_ORDER
  | EXECUTE_ORDER
  | DELETE_ORDER
  | INVALID
deriving DecidableEq, Repr

/-- AddOrderMsg (messages.hpp); packed record of 36 bytes.  Field values as
decoded: bytes for the symbol, little-endian naturals for the unsigned
fields, a signed 64-bit integer for the price. -/
structure AddOrderMsg where
  ts_us : Nat
  order_id : Nat
  symbol : List Nat
  side : Nat
  px_nano : Int
  qty : Nat
deriving DecidableEq, Repr

/-- ModifyOrderMsg (messages.hpp); packed record of 29 bytes. -/
structure ModifyOrderMsg where
  ts_us : Nat
  order_id : Nat
  new_px_nano : Int
  new_qty : Nat
deriving DecidableEq, Repr

/-- ExecuteOrderMsg (messages.hpp); packed record of 21 bytes. -/
structure ExecuteOrderMsg where
  ts_us : Nat
  order_id : Nat
  exec_qty : Nat
deriving DecidableEq, Repr

/-- DeleteOrderMsg (messages.hpp); packed record of 17 bytes. -/
structure DeleteOrderMsg where
  ts_us : Nat
  order_id : Nat
deriving DecidableEq, Repr

/-- The decoded message payload (messages.hpp `EventPayload`). -/
inductive EventPayload where
  | add (m : AddOrderMsg)
  | modify (m : ModifyOrderMsg)
  | execute (m : ExecuteOrderMsg)
  | delete_order (m : DeleteOrderMsg)
deriving DecidableEq, Repr

/-- Decoded event (messages.hpp `Event`); the default-constructed event has
kind INVALID, no payload and timestamp 0. -/
structure Event where
  type : EventType
  payload : Option EventPayload
  decode_timestamp_us : Nat
deriving DecidableEq, Repr

/-- `Event()` — the Invalid event returned on failure paths. -/
def Event.invalid : Event := ⟨EventType.INVALID, none, 0⟩

/-- Decoder state: the memory-mapped bytes, the cursor, and the number of
monotonic-clock reads performed so far (`Clock::now_us()` is modelled as an
oracle function of that count). -/
structure Decoder where
  data : List Nat
  pos : Nat
  reads : Nat
deriving DecidableEq, Repr

/-- Decoder construction on a successfully mapped file: cursor at 0. -/
def Decoder.mk0 (data : List Nat) : Decoder := ⟨data, 0, 0⟩

/-- Byte of the mapping at an absolute offset. -/
def byteAt (data : List Nat) (i : Nat) : Nat := data.getD i 0

/-- Little-endian unsigned integer of `n` bytes at offset `i`. -/
def readLE (data : List Nat) (i : Nat) : Nat → Nat
  | 0 => 0
  | n + 1 => byteAt data i + 256 * readLE data (i + 1) n

/-- Reinterpret a 64-bit little-endian natural as a signed int64. -/
def toInt64 (n : Nat) : Int := if n < 2 ^ 63 then (n : Int) else (n : Int) - 2 ^ 64

/-- Decoder::read_message<AddOrderMsg>: length check, side and quantity
validation, field extraction.  Returns none exactly when the C++ function
returns false (leaving the cursor untouched). -/
def decodeAdd (d : Decoder) : Option AddOrderMsg :=
  if d.pos + 36 ≤ d.data.length then
    let side := byteAt d.data (d.pos + 23)
    let qty := readLE d.data (d.pos + 32) 4
    if (side = 66 ∨ side = 83) ∧ qty ≠ 0 then
      some ⟨readLE d.data (d.pos + 1) 8, readLE d.data (d.pos + 9) 8,
        (d.data.drop (d.pos + 17)).take 6, side, toInt64 (readLE d.data (d.pos + 24) 8), qty⟩
    else none
  else none

/-- Decoder::read_message<ModifyOrderMsg>. -/
def decodeModify (d : Decoder) : Option ModifyOrderMsg :=
  if d.pos + 29 ≤ d.data.length then
    let qty := readLE d.data (d.pos + 25) 4
    if qty ≠ 0 then
      some ⟨readLE d.data (d.pos + 1) 8, readLE d.data (d.pos + 9) 8,
        toInt64 (readLE d.data (d.pos + 17) 8), qty⟩
    else none
  else none

/-- Decoder::read_message<ExecuteOrderMsg>. -/
def decodeExecute (d : Decoder) : Option ExecuteOrderMsg :=
  if d.pos + 21 ≤ d.data.length then
    let qty := readLE d.data (d.pos + 17) 4
    if qty ≠ 0 then
      some ⟨readLE d.data (d.pos + 1) 8, readLE d.data (d.pos + 9) 8, qty⟩
    else none
  else none

/-- Decoder::read_message<DeleteOrderMsg>: only the length check. -/
def decodeDelete (d : Decoder) : Option DeleteOrderMsg :=
  if d.pos + 17 ≤ d.data.length then
    some ⟨readLE d.data (d.pos + 1) 8, readLE d.data (d.pos + 9) 8⟩
  else none

/-- Body of Decoder::next, fuelled for the unknown-tag recursion
(`current_pos_++; return next();`).  `next` always calls it with
`fuel = data.length - pos`, which exactly matches the recursion depth:
`fuel = 0` iff the cursor is at or past the end (the `!has_next()` early
return), and within a call with positive fuel the cursor is before the
end. -/
def nextAux (clock : Nat → Nat) : Nat → Decoder → Event × Decoder
  | 0, d => (Event.invalid, d)
  | fuel + 1, d =>
    if d.pos < d.data.length then
      let ts := clock d.reads
      let d1 : Decoder := { d with reads := d.reads + 1 }
      let b := byteAt d.data d.pos
      if b = 65 then
        match decodeAdd d with
        | some m => (⟨EventType.ADD_ORDER, some (EventPayload.add m), ts⟩,
            { d1 with pos := d.pos + 36 })
        | none => (Event.invalid, d1)
      else if b = 85 then
        match decodeModify d with
        | some m => (⟨EventType.MODIFY_ORDER, some (EventPayload.modify m), ts⟩,
            { d1 with pos := d.pos + 29 })
        | none => (Event.invalid, d1)
      else if b = 69 then
        match decodeExecute d with
        | some m => (⟨EventType.EXECUTE_ORDER, some (EventPayload.execute m), ts⟩,
            { d1 with pos := d.pos + 21 })
        | none => (Event.invalid, d1)
      else if b = 68 then
        match decodeDelete d with
        | some m => (⟨EventType.DELETE_ORDER, some (EventPayload.delete_order m), ts⟩,
            { d1 with pos := d.pos + 17 })
        | none => (Event.invalid, d1)
      else
        nextAux clock fuel { d1 with pos := d.pos + 1 }
    else (Event.invalid, d)

/-- Decoder::next. -/
def Decoder.next (clock : Nat → Nat) (d : Decoder) : Event × Decoder :=
  nextAux clock (d.data.length - d.pos) d

/-- Decoder::has_next: `cursor < file_size`. -/
def Decoder.has_next (d : Decoder) : Bool := d.pos < d.data.length

/-- Decoder::reset: cursor back to 0. -/
def Decoder.reset (d : Decoder) : Decoder := { d with pos := 0 }

/-- Decoder::position. -/
def Decoder.position (d : Decoder) : Nat := d.pos

/-- Decoder::size. -/
def Decoder.sizeBytes (d : Decoder) : Nat := d.data.length

/-- The state after `n` calls to next(). -/
def iterState (clock : Nat → Nat) (d : Decoder) : Nat → Decoder
  | 0 => d
  | n + 1 => iterState clock (d.next clock).2 n

/-- The list of events produced by `n` consecutive calls to next(). -/
def runEvents (clock : Nat → Nat) (d : Decoder) : Nat → List Event
  | 0 => []
  | n + 1 => (d.next clock).1 :: runEvents clock (d.next clock).2 n

/-- Observable projection of an event: its kind and payload (everything but
the decode timestamp). -/
def eventObs (e : Event) : EventType × Option EventPayload := (e.type, e.payload)

end feed

namespace feed

/-- Fixed 6-byte symbol (messages.hpp `Symbol`); ASCII strings are modelled
as byte lists. -/
structure Symbol where
  bytes : List Nat
deriving DecidableEq, Repr

/-- `Symbol(const char* str)`: 6 spaces, then `memcpy` of
`min(strlen(str), 5)` bytes — the constructor caps the copy at 5
characters.  The argument is the byte list of the C string (up to its NUL
terminator, hence containing no 0 byte). -/
def Symbol.ofBytes (s : List Nat) : Symbol :=
  ⟨s.take 5 ++ List.replicate (6 - (s.take 5).length) 32⟩

/-- Drop trailing spaces (`erase(find_last_not_of(' ') + 1)`). -/
def trimTrailingSpaces (l : List Nat) : List Nat :=
  (l.reverse.dropWhile (fun b => b == 32)).reverse

/-- Symbol::to_string. -/
def Symbol.to_string (sym : Symbol) : List Nat := trimTrailingSpaces sym.bytes

/-- Symbol::operator== : memcmp of the 6 stored bytes. -/
def Symbol.beq (a b : Symbol) : Bool := a.bytes == b.bytes

end feed

namespace publish

/-- Round a rational to an integer, half to even (the IEEE-754 default
rounding used by the modelled double arithmetic). -/
def rhe (x : ℚ) : ℤ :=
  let f := x.floor
  let r := x - (f : ℚ)
  if r < 1 / 2 then f
  else if 1 / 2 < r then f + 1
  else if f % 2 = 0 then f else f + 1

/-- Fuelled binary logarithm: `nlog2F fuel n` is the greatest `e` with
`2 ^ e ≤ n` whenever `1 ≤ n ≤ fuel` (structural recursion so that proofs
can evaluate it). -/
def nlog2F : Nat → Nat → Nat
  | 0, _ => 0
  | fuel + 1, n => if n ≤ 1 then 0 else nlog2F fuel (n / 2) + 1

/-- Greatest `e` with `2 ^ e ≤ n`, for `n ≥ 1` (0 for `n = 0`). -/
def nlog2 (n : Nat) : Nat := nlog2F n n

/-- Greatest `e` with `2 ^ e ≤ a`, for positive rational `a`. -/
def qlog2 (a : ℚ) : ℤ :=
  if 1 ≤ a then (nlog2 a.floor.toNat : ℤ)
  else
    let m := nlog2 a⁻¹.floor.toNat
    if (2 : ℚ) ^ (-(m : ℤ)) ≤ a then -(m : ℤ) else -(m : ℤ) - 1

/-- Exact value of the IEEE-754 binary64 nearest to a rational: the 53-bit
significand is obtained by rounding half to even at quantum
`2 ^ (e − 52)` (clamped below at the subnormal quantum `2 ^ −1074`).
Overflow to infinity is outside the int64-derived range used here and is
not modelled. -/
def roundB64 (q : ℚ) : ℚ :=
  if q = 0 then 0
  else
    (if q < 0 then -1 else 1) *
      (rhe (|q| / 2 ^ (max (qlog2 |q| - 52) (-1074))) : ℚ) *
        2 ^ (max (qlog2 |q| - 52) (-1074))

/-- `static_cast<double>(price_nano)`: int64 → binary64 conversion, round
to nearest even. -/
def castDouble (n : ℤ) : ℚ := roundB64 (n : ℚ)

/-- Correctly rounded binary64 division. -/
def divDouble (a b : ℚ) : ℚ := roundB64 (a / b)

/-- Fuelled base-10 digit extraction, least significant ASCII digit first;
complete whenever `n ≤ fuel`. -/
def digitsF : Nat → Nat → List Nat
  | 0, _ => []
  | fuel + 1, n => if n = 0 then [] else (n % 10 + 48) :: digitsF fuel (n / 10)

/-- ASCII decimal digits of a natural number. -/
def natDecimal (n : Nat) : List Nat :=
  if n = 0 then [48] else (digitsF n n).reverse

/-- ASCII decimal digits of a natural number, left-padded with zeros to
width `w`. -/
def natDecimalPad (w : Nat) (n : Nat) : List Nat :=
  List.replicate (w - (natDecimal n).length) 48 ++ natDecimal n

/-- `std::fixed << std::setprecision(9) << v` on the exact value `v` of a
binary64: sign, integer digits, '.', nine fraction digits; the decimal
value is correctly rounded to nine fractional digits (half to even).
Output is the emitted ASCII byte sequence. -/
def formatFixed9 (v : ℚ) : List Nat :=
  let N := (rhe (|v| * 10 ^ 9)).toNat
  (if v < 0 then [45] else []) ++ natDecimal (N / 10 ^ 9) ++ [46] ++ natDecimalPad 9 (N % 10 ^ 9)

/-- TopOfBookPublisher::format_price:
`oss << std::fixed << std::setprecision(9) << (static_cast<double>(price_nano) / 1e9)`. -/
def format_price (price_nano : ℤ) : List Nat :=
  formatFixed9 (divDouble (castDouble price_nano) (10 ^ 9))

/-- Modelled from the spec (`Prices are formatted as fixed-point decimal
with nine fractional digits (nano-units ÷ 1e9)`, exactness as claimed):
the exact fixed-point decimal representation of `price_nano / 10^9` with
exactly nine fractional digits.  Used only as the comparison point for the
refinement claim about `format_price`. -/
def spec_exact_fixed9 (price_nano : ℤ) : List Nat :=
  (if price_nano < 0 then [45] else []) ++ natDecimal (price_nano.natAbs / 10 ^ 9) ++ [46] ++
    natDecimalPad 9 (price_nano.natAbs % 10 ^ 9)

end publish

namespace feed

/-- A record at the cursor whose tag is known and whose bytes all lie within
the file, but which fails the per-type validation of
Decoder::read_message: an Add with an invalid side or zero quantity, a
Modify with zero new quantity, or an Execute with zero executed quantity. -/
def stuckRecord (d : Decoder) : Prop :=
  (byteAt d.data d.pos = 65 ∧ d.pos + 36 ≤ d.data.length ∧
    ¬((byteAt d.data (d.pos + 23) = 66 ∨ byteAt d.data (d.pos + 23) = 83) ∧
      readLE d.data (d.pos + 32) 4 ≠ 0)) ∨
  (byteAt d.data d.pos = 85 ∧ d.pos + 29 ≤ d.data.length ∧
    readLE d.data (d.pos + 25) 4 = 0) ∨
  (byteAt d.data d.pos = 69 ∧ d.pos + 21 ≤ d.data.length ∧
    readLE d.data (d.pos + 17) 4 = 0)

instance (d : Decoder) : Decidable (stuckRecord d) := by
  unfold stuckRecord
  infer_instance

end feed

set_option maxRecDepth 10000

/-- Claim C1: the spec asserts that invariants I1-I5 (in particular I5,
positivity of every live order, and I3, a level entry exists iff its
aggregated quantity is positive) hold after every accepted operation, for
all argument values accepted by the public interface, including
`on_add` with quantity 0.  The code violates this: `OrderBook::on_add`
checks only for a duplicate id and for crossing, never for
`quantity == 0`, so `on_add(1, BUY, 100, 0)` on an empty book is accepted
(returns true) and leaves a live order of quantity 0 and a bid level
entry of aggregated quantity 0 — contradicting I5 and I3.  This theorem
evaluates the embedded code at that failing input. -/
theorem C1_zero_quantity_add_accepted :
    (book.OrderBook.init.on_add 1 book.Side.BUY 100 0).1 = true ∧
    ((book.OrderBook.init.on_add 1 book.Side.BUY 100 0).2.orders.lookup 1 =
      some ⟨book.Side.BUY, 100, 0⟩) ∧
    (book.OrderBook.init.on_add 1 book.Side.BUY 100 0).2.bids = [(100, 0)] := by
  decide

/-- Claim C2: every rejected (false-returning) public operation leaves the
order book state completely unchanged — hence the order map, both
price-level ladders, order_count(), empty() and top_of_book() are all
identical before and after the call, for every rejection cause. -/
theorem C2_rejected_operations_unchanged (b : book.OrderBook) (id : Nat)
    (side : book.Side) (px : Int) (q : Nat) :
    ((b.on_add id side px q).1 = false → (b.on_add id side px q).2 = b) ∧
    ((b.on_modify id px q).1 = false → (b.on_modify id px q).2 = b) ∧
    ((b.on_execute id q).1 = false → (b.on_execute id q).2 = b) ∧
    ((b.on_delete id).1 = false → (b.on_delete id).2 = b) := by
  refine ⟨?_, ?_, ?_, ?_⟩
  · unfold book.OrderBook.on_add
    split
    · intro _; rfl
    · split
      · intro _; rfl
      · intro h; exact absurd h (by simp)
  · unfold book.OrderBook.on_modify
    split
    · intro _; rfl
    · split
      · intro _; rfl
      · split
        · intro _; rfl
        · intro h; exact absurd h (by simp)
  · unfold book.OrderBook.on_execute
    split
    · intro _; rfl
    · split
      · intro _; rfl
      · intro h; exact absurd h (by simp)
  · unfold book.OrderBook.on_delete
    split
    · intro _; rfl
    · intro h; exact absurd h (by simp)

/-- Witness for C2: deleting a nonexistent order from the empty book is
rejected and leaves the book unchanged. -/
theorem C2_witness :
    (book.OrderBook.init.on_delete 1).1 = false ∧
    (book.OrderBook.init.on_delete 1).2 = book.OrderBook.init :=
  ⟨by decide,
    (C2_rejected_operations_unchanged book.OrderBook.init 1 book.Side.BUY 0 0).2.2.2
      (by decide)⟩

/-- Claim C3: for a live order and a positive new quantity, the
accept/reject decision of on_modify is exactly the no-crossing test
evaluated on the pre-mutation book (the order's own old contribution
included): a BUY is rejected iff the ask ladder is non-empty and the new
price is at least the best (minimum) ask; a SELL is rejected iff the bid
ladder is non-empty and the new price is at most the best (maximum) bid.
The old level is subtracted only after this check, which is why the test
sees the unmodified ladders. -/
theorem C3_modify_crossing_precheck (b : book.OrderBook) (id : Nat) (px : Int)
    (q : Nat) (o : book.OrderInfo)
    (hlook : b.orders.lookup id = some o) (hq : q ≠ 0) :
    (b.on_modify id px q).1 = !(b.has_crossing o.side px) ∧
    (b.has_crossing o.side px = true ↔
      (o.side = book.Side.BUY ∧ ∃ ap, b.bestAskPx = some ap ∧ ap ≤ px) ∨
      (o.side = book.Side.SELL ∧ ∃ bp, b.bestBidPx = some bp ∧ px ≤ bp)) := by
  constructor
  · unfold book.OrderBook.on_modify
    rw [hlook]
    simp only [hq, if_false]
    by_cases hc : b.has_crossing o.side px
    · simp [hc]
    · simp [hc]
  · unfold book.OrderBook.has_crossing book.OrderBook.bestAskPx book.OrderBook.bestBidPx
    cases hs : o.side
    · cases ha : b.asks
      · simp
      · rename_i p t
        obtain ⟨ap, aq⟩ := p
        simp
    · cases hb : b.bids
      · simp
      · rename_i p t
        obtain ⟨bp, bq⟩ := p
        simp

/-- Witness for C3: on a book holding one bid order (id 5, BUY at 100,
quantity 10), modifying it to price 50, quantity 7 is decided by the
pre-mutation crossing test. -/
theorem C3_witness :
    ((⟨[(100, 10)], [], [(5, ⟨book.Side.BUY, 100, 10⟩)]⟩ :
        book.OrderBook).on_modify 5 50 7).1 =
      !((⟨[(100, 10)], [], [(5, ⟨book.Side.BUY, 100, 10⟩)]⟩ :
        book.OrderBook).has_crossing book.Side.BUY 50) :=
  (C3_modify_crossing_precheck
    (⟨[(100, 10)], [], [(5, ⟨book.Side.BUY, 100, 10⟩)]⟩ : book.OrderBook)
    5 50 7 ⟨book.Side.BUY, 100, 10⟩ (by decide) (by decide)).1

namespace core

theorem ridx_zero (C head tail : Nat) (hh : head < C) (ht : tail < C) :
    ((tail + C - head) % C = 0 ↔ head = tail) := by
  rcases Nat.le_total head tail with h | h
  · have e1 : tail + C - head = (tail - head) + C := by omega
    rw [e1, Nat.add_mod_right, Nat.mod_eq_of_lt (by omega)]
    omega
  · rcases Nat.eq_or_lt_of_le h with h' | h'
    · have e1 : tail + C - head = C := by omega
      rw [e1, Nat.mod_self]
      omega
    · rw [Nat.mod_eq_of_lt (by omega)]
      omega

theorem ridx_push (C head tail : Nat) (hh : head < C) (ht : tail < C)
    (hne : (tail + 1) % C ≠ head) :
    ((tail + 1) % C + C - head) % C = (tail + C - head) % C + 1 := by
  rcases Nat.lt_or_ge (tail + 1) C with hlt | hge
  · rw [Nat.mod_eq_of_lt hlt] at hne ⊢
    rcases Nat.lt_trichotomy (tail + 1) head with h | h | h
    · rw [Nat.mod_eq_of_lt (show tail + 1 + C - head < C by omega),
        Nat.mod_eq_of_lt (show tail + C - head < C by omega)]
      omega
    · exact absurd h hne
    · have e1 : tail + 1 + C - head = (tail + 1 - head) + C := by omega
      have e2 : tail + C - head = (tail - head) + C := by omega
      rw [e1, e2, Nat.add_mod_right, Nat.add_mod_right,
        Nat.mod_eq_of_lt (show tail + 1 - head < C by omega),
        Nat.mod_eq_of_lt (show tail - head < C by omega)]
      omega
  · have e0 : tail + 1 = C := by omega
    rw [e0, Nat.mod_self] at hne ⊢
    have e2 : tail + C - head = (tail - head) + C := by omega
    rw [Nat.mod_eq_of_lt (show 0 + C - head < C by omega), e2, Nat.add_mod_right,
      Nat.mod_eq_of_lt (show tail - head < C by omega)]
    omega

theorem ridx_pop (C head tail : Nat) (hh : head < C) (ht : tail < C)
    (hne : head ≠ tail) :
    (tail + C - (head + 1) % C) % C + 1 = (tail + C - head) % C := by
  rcases Nat.lt_or_ge (head + 1) C with hlt | hge
  · rw [Nat.mod_eq_of_lt hlt]
    rcases Nat.le_total head tail with h | h
    · have h' : head < tail := by omega
      have e1 : tail + C - (head + 1) = (tail - head - 1) + C := by omega
      have e2 : tail + C - head = (tail - head) + C := by omega
      rw [e1, e2, Nat.add_mod_right, Nat.add_mod_right,
        Nat.mod_eq_of_lt (show tail - head - 1 < C by omega),
        Nat.mod_eq_of_lt (show tail - head < C by omega)]
      omega
    · have h' : tail < head := by omega
      rw [Nat.mod_eq_of_lt (show tail + C - (head + 1) < C by omega),
        Nat.mod_eq_of_lt (show tail + C - head < C by omega)]
      omega
  · have e0 : head + 1 = C := by omega
    have htl : tail < head := by omega
    rw [e0, Nat.mod_self, Nat.sub_zero, Nat.add_mod_right, Nat.mod_eq_of_lt ht]
    have e2 : tail + C - head = tail + 1 := by omega
    rw [e2, Nat.mod_eq_of_lt (show tail + 1 < C by omega)]

theorem ridx_mid (C head tail i : Nat) (hh : head < C) (ht : tail < C)
    (hi : i < (tail + C - head) % C) :
    (head + i) % C ≠ tail := by
  rcases Nat.le_total head tail with h | h
  · have e2 : tail + C - head = (tail - head) + C := by omega
    rw [e2, Nat.add_mod_right, Nat.mod_eq_of_lt (show tail - head < C by omega)] at hi
    rw [Nat.mod_eq_of_lt (show head + i < C by omega)]
    omega
  · rcases Nat.eq_or_lt_of_le h with h' | h'
    · have e1 : tail + C - head = C := by omega
      rw [e1, Nat.mod_self] at hi
      omega
    · rw [Nat.mod_eq_of_lt (show tail + C - head < C by omega)] at hi
      rcases Nat.lt_or_ge (head + i) C with hlt | hge2
      · rw [Nat.mod_eq_of_lt hlt]
        omega
      · have e1 : head + i = (head + i - C) + C := by omega
        rw [e1, Nat.add_mod_right, Nat.mod_eq_of_lt (show head + i - C < C by omega)]
        omega

theorem ridx_end (C head tail : Nat) (hh : head < C) (ht : tail < C) :
    (head + (tail + C - head) % C) % C = tail := by
  rcases Nat.le_total head tail with h | h
  · have e2 : tail + C - head = (tail - head) + C := by omega
    rw [e2, Nat.add_mod_right, Nat.mod_eq_of_lt (show tail - head < C by omega),
      Nat.mod_eq_of_lt (show head + (tail - head) < C by omega)]
    omega
  · rcases Nat.eq_or_lt_of_le h with h' | h'
    · have e1 : tail + C - head = C := by omega
      rw [e1, Nat.mod_self, Nat.add_zero, Nat.mod_eq_of_lt hh]
      omega
    · rw [Nat.mod_eq_of_lt (show tail + C - head < C by omega)]
      have e1 : head + (tail + C - head) = tail + C := by omega
      rw [e1, Nat.add_mod_right, Nat.mod_eq_of_lt ht]

theorem try_push_fail {V : Type} [Inhabited V] {k : Nat} (rb : RingBuffer V) (v : V)
    (h : RingInv k rb) (hfull : (rb.tail + 1) % 2 ^ k = rb.head) :
    rb.try_push v = (false, rb) := by
  obtain ⟨hc, hm, hl, hh, ht⟩ := h
  unfold RingBuffer.try_push
  rw [hm, Nat.and_pow_two_sub_one_eq_mod, if_pos hfull]

theorem try_push_succ {V : Type} [Inhabited V] {k : Nat} (rb : RingBuffer V) (v : V)
    (h : RingInv k rb) (hfull : (rb.tail + 1) % 2 ^ k ≠ rb.head) :
    (rb.try_push v).1 = true ∧ RingInv k (rb.try_push v).2 ∧
      queueOf (rb.try_push v).2 = queueOf rb ++ [v] := by
  obtain ⟨hc, hm, hl, hh, ht⟩ := h
  have hC : 0 < 2 ^ k := Nat.pos_pow_of_pos _ (by omega)
  unfold RingBuffer.try_push
  rw [hm, Nat.and_pow_two_sub_one_eq_mod, if_neg hfull]
  refine ⟨rfl, ⟨hc, rfl, by simp [hl], hh, Nat.mod_lt _ hC⟩, ?_⟩
  unfold queueOf
  simp only [hc]
  rw [ridx_push (2 ^ k) rb.head rb.tail hh ht hfull, List.range_succ, List.map_append]
  congr 1
  · apply List.map_congr_left
    intro i hi
    rw [List.mem_range] at hi
    have hne := ridx_mid (2 ^ k) rb.head rb.tail i hh ht hi
    simp only [List.getD_eq_getElem?_getD]
    rw [List.getElem?_set_ne (fun e => hne e.symm)]
  · simp only [List.map_cons, List.map_nil]
    rw [ridx_end (2 ^ k) rb.head rb.tail hh ht]
    simp only [List.getD_eq_getElem?_getD]
    rw [List.getElem?_set_self (by omega)]
    rfl

theorem try_pop_fail {V : Type} [Inhabited V] {k : Nat} (rb : RingBuffer V)
    (h : RingInv k rb) (hempty : rb.head = rb.tail) :
    rb.try_pop = (none, rb) ∧ queueOf rb = [] := by
  obtain ⟨hc, hm, hl, hh, ht⟩ := h
  constructor
  · unfold RingBuffer.try_pop
    rw [if_pos hempty]
  · unfold queueOf
    rw [hc, (ridx_zero (2 ^ k) rb.head rb.tail hh ht).mpr hempty]
    simp

theorem try_pop_succ {V : Type} [Inhabited V] {k : Nat} (rb : RingBuffer V)
    (h : RingInv k rb) (hne : rb.head ≠ rb.tail) :
    (rb.try_pop).1 = some (rb.buf.getD rb.head default) ∧ RingInv k (rb.try_pop).2 ∧
      queueOf rb = (rb.buf.getD rb.head default) :: queueOf (rb.try_pop).2 := by
  obtain ⟨hc, hm, hl, hh, ht⟩ := h
  have hC : 0 < 2 ^ k := Nat.pos_pow_of_pos _ (by omega)
  unfold RingBuffer.try_pop
  rw [if_neg hne]
  refine ⟨rfl, ⟨hc, hm, hl, ?_, ht⟩, ?_⟩
  · simp only [hm, Nat.and_pow_two_sub_one_eq_mod]
    exact Nat.mod_lt _ hC
  · unfold queueOf
    simp only [hc, hm, Nat.and_pow_two_sub_one_eq_mod]
    have hd : (rb.tail + 2 ^ k - (rb.head + 1) % 2 ^ k) % 2 ^ k + 1
        = (rb.tail + 2 ^ k - rb.head) % 2 ^ k :=
      ridx_pop (2 ^ k) rb.head rb.tail hh ht hne
    rw [← hd, List.range_succ_eq_map, List.map_cons, List.map_map]
    congr 1
    · rw [Nat.add_zero, Nat.mod_eq_of_lt hh]
    · apply List.map_congr_left
      intro i hi
      simp only [Function.comp_apply]
      rw [Nat.mod_add_mod]
      congr 2
      omega

theorem runOps_fifo {V : Type} [Inhabited V] {k : Nat} (ops : List (Op V)) :
    ∀ rb : RingBuffer V, RingInv k rb →
      RingInv k (runOps rb ops).1 ∧
      (runOps rb ops).2.2 ++ queueOf (runOps rb ops).1 =
        queueOf rb ++ (runOps rb ops).2.1 := by
  induction ops with
  | nil =>
    intro rb h
    exact ⟨h, by simp [runOps]⟩
  | cons op rest ih =>
    intro rb h
    cases op with
    | push v =>
      by_cases hfull : (rb.tail + 1) % 2 ^ k = rb.head
      · have hp := try_push_fail rb v h hfull
        simp only [runOps, hp]
        have h2 := ih rb h
        exact ⟨h2.1, by simpa using h2.2⟩
      · have hp := try_push_succ rb v h hfull
        simp only [runOps, hp.1, if_true]
        have h2 := ih (rb.try_push v).2 hp.2.1
        refine ⟨h2.1, ?_⟩
        rw [h2.2, hp.2.2]
        simp
    | pop =>
      by_cases hemp : rb.head = rb.tail
      · have hp := try_pop_fail rb h hemp
        simp only [runOps, hp.1]
        have h2 := ih rb h
        exact ⟨h2.1, by simpa using h2.2⟩
      · have hp := try_pop_succ rb h hemp
        simp only [runOps, hp.1]
        have h2 := ih (rb.try_pop).2 hp.2.1
        refine ⟨h2.1, ?_⟩
        rw [hp.2.2]
        simp only [List.cons_append]
        rw [h2.2]

theorem pushAll_fill {V : Type} [Inhabited V] {k : Nat} (vs : List V) :
    ∀ rb : RingBuffer V, rb.capacity = 2 ^ k → rb.mask = 2 ^ k - 1 → rb.head = 0 →
      rb.buf.length = 2 ^ k → rb.tail + vs.length + 1 ≤ 2 ^ k →
      (pushAll rb vs).1.all (· = true) ∧
      (pushAll rb vs).2.capacity = 2 ^ k ∧ (pushAll rb vs).2.mask = 2 ^ k - 1 ∧
      (pushAll rb vs).2.head = 0 ∧ (pushAll rb vs).2.tail = rb.tail + vs.length ∧
      (pushAll rb vs).2.buf.length = 2 ^ k := by
  induction vs with
  | nil =>
    intro rb h1 h2 h3 h4 h5
    refine ⟨by simp [pushAll], ?_, ?_, ?_, ?_, ?_⟩ <;> simp [pushAll, h1, h2, h3, h4]
  | cons v rest ih =>
    intro rb h1 h2 h3 h4 h5
    simp only [List.length_cons] at h5
    have htl : rb.tail + 1 < 2 ^ k := by omega
    have hsucc : rb.try_push v =
        (true, { rb with buf := rb.buf.set rb.tail v, tail := rb.tail + 1 }) := by
      unfold RingBuffer.try_push
      rw [h2, Nat.and_pow_two_sub_one_eq_mod, Nat.mod_eq_of_lt htl, if_neg (by omega)]
    simp only [pushAll, hsucc]
    have h6 := ih { rb with buf := rb.buf.set rb.tail v, tail := rb.tail + 1 }
      (by simpa using h1) (by simpa using h2) (by simpa using h3) (by simpa using h4)
      (by simp; omega)
    refine ⟨?_, h6.2.1, h6.2.2.1, h6.2.2.2.1, ?_, h6.2.2.2.2.2⟩
    · simp only [List.all_cons, h6.1, Bool.and_true]
      simp
    · rw [h6.2.2.2.2.1]
      simp
      omega

end core

/-- Claim C4: executing any finite sequence of try_push/try_pop operations
sequentially on a ring of power-of-two capacity that starts empty, the
values returned by the successful pops are exactly the values given to the
successful pushes, in order — the popped sequence followed by what still
rests in the buffer equals the accepted-push sequence, so nothing is lost,
duplicated or reordered, and when the ring ends empty the two sequences
are identical. -/
theorem C4_spsc_fifo {V : Type} [Inhabited V] (k : Nat) (rb : core.RingBuffer V)
    (ops : List (core.Op V)) (h : core.RingInv k rb) (h0 : core.queueOf rb = []) :
    (core.runOps rb ops).2.2 ++ core.queueOf (core.runOps rb ops).1 =
      (core.runOps rb ops).2.1 ∧
    (core.queueOf (core.runOps rb ops).1 = [] →
      (core.runOps rb ops).2.2 = (core.runOps rb ops).2.1) := by
  have hm := core.runOps_fifo ops rb h
  rw [h0] at hm
  have h1 : (core.runOps rb ops).2.2 ++ core.queueOf (core.runOps rb ops).1 =
      (core.runOps rb ops).2.1 := by
    simpa using hm.2
  refine ⟨h1, fun hfin => ?_⟩
  rw [hfin] at h1
  simpa using h1

/-- Witness for C4: two pushes and two pops on a fresh ring of capacity 4. -/
theorem C4_witness :
    core.RingInv 2 (core.RingBuffer.mk0 Nat 4) ∧
    core.queueOf (core.RingBuffer.mk0 Nat 4) = [] ∧
    ((core.runOps (core.RingBuffer.mk0 Nat 4)
        [core.Op.push 7, core.Op.push 8, core.Op.pop, core.Op.pop]).2.2 ++
      core.queueOf (core.runOps (core.RingBuffer.mk0 Nat 4)
        [core.Op.push 7, core.Op.push 8, core.Op.pop, core.Op.pop]).1 =
      (core.runOps (core.RingBuffer.mk0 Nat 4)
        [core.Op.push 7, core.Op.push 8, core.Op.pop, core.Op.pop]).2.1) :=
  ⟨by decide, by decide,
    (C4_spsc_fifo 2 (core.RingBuffer.mk0 Nat 4)
      [core.Op.push 7, core.Op.push 8, core.Op.pop, core.Op.pop]
      (by decide) (by decide)).1⟩

/-- Claim C5: on a freshly constructed ring of power-of-two capacity
C = 2^k (k ≤ 64, the size_t regime), C−1 consecutive pushes all succeed,
the C-th try_push returns false and returns the state completely unchanged
(same head, tail, slots — hence same size()), size() then reports C−1
(the usable capacity), the push-failure condition is exactly
`(tail+1) & mask == head`, and empty() is exactly `head == tail`. -/
theorem C5_usable_capacity {V : Type} [Inhabited V] (k : Nat) (vs : List V) (v : V)
    (hk : k ≤ 64) (hlen : vs.length = 2 ^ k - 1) :
    (core.pushAll (core.RingBuffer.mk0 V (2 ^ k)) vs).1.all (· = true) ∧
    core.RingBuffer.try_push (core.pushAll (core.RingBuffer.mk0 V (2 ^ k)) vs).2 v =
      (false, (core.pushAll (core.RingBuffer.mk0 V (2 ^ k)) vs).2) ∧
    core.RingBuffer.size (core.pushAll (core.RingBuffer.mk0 V (2 ^ k)) vs).2 =
      2 ^ k - 1 ∧
    (∀ rb : core.RingBuffer V,
      ((rb.try_push v).1 = false ↔ (rb.tail + 1) &&& rb.mask = rb.head)) ∧
    (∀ rb : core.RingBuffer V, (rb.isEmptyRB = true ↔ rb.head = rb.tail)) := by
  have h2k : 1 ≤ 2 ^ k := Nat.one_le_two_pow
  have hfill := core.pushAll_fill (k := k) vs (core.RingBuffer.mk0 V (2 ^ k))
    rfl rfl rfl (by simp [core.RingBuffer.mk0]) (by simp [core.RingBuffer.mk0]; omega)
  obtain ⟨hall, hcap, hmask, hhead, htail, hbuf⟩ := hfill
  have htail' : (core.pushAll (core.RingBuffer.mk0 V (2 ^ k)) vs).2.tail = 2 ^ k - 1 := by
    rw [htail, hlen]
    simp [core.RingBuffer.mk0]
  refine ⟨hall, ?_, ?_, ?_, ?_⟩
  · unfold core.RingBuffer.try_push
    rw [hmask, Nat.and_pow_two_sub_one_eq_mod, htail', hhead]
    rw [show 2 ^ k - 1 + 1 = 2 ^ k by omega, Nat.mod_self, if_pos rfl]
  · have hle : 2 ^ k ≤ 2 ^ 64 := Nat.pow_le_pow_right (by omega) hk
    unfold core.RingBuffer.size core.sub_u64
    rw [hmask, htail', hhead, Nat.sub_zero, Nat.add_mod_right,
      Nat.mod_eq_of_lt (by omega), Nat.and_pow_two_sub_one_eq_mod,
      Nat.mod_eq_of_lt (by omega)]
  · intro rb
    unfold core.RingBuffer.try_push
    by_cases hc : (rb.tail + 1) &&& rb.mask = rb.head
    · rw [if_pos hc]
      simp [hc]
    · rw [if_neg hc]
      simp [hc]
  · intro rb
    simp [core.RingBuffer.isEmptyRB]

/-- Witness for C5: capacity 4 accepts exactly 3 pushes; the 4th fails and
leaves the state unchanged. -/
theorem C5_witness :
    (2 ≤ 64) ∧ ([5, 6, 7] : List Nat).length = 2 ^ 2 - 1 ∧
    (core.pushAll (core.RingBuffer.mk0 Nat (2 ^ 2)) [5, 6, 7]).1.all (· = true) ∧
    core.RingBuffer.try_push (core.pushAll (core.RingBuffer.mk0 Nat (2 ^ 2)) [5, 6, 7]).2 9 =
      (false, (core.pushAll (core.RingBuffer.mk0 Nat (2 ^ 2)) [5, 6, 7]).2) ∧
    core.RingBuffer.size (core.pushAll (core.RingBuffer.mk0 Nat (2 ^ 2)) [5, 6, 7]).2 =
      2 ^ 2 - 1 :=
  ⟨by decide, by decide,
    (C5_usable_capacity 2 [5, 6, 7] 9 (by decide) (by decide)).1,
    (C5_usable_capacity 2 [5, 6, 7] 9 (by decide) (by decide)).2.1,
    (C5_usable_capacity 2 [5, 6, 7] 9 (by decide) (by decide)).2.2.1⟩

namespace feed

theorem nextAux_data (clock : Nat → Nat) : ∀ (fuel : Nat) (d : Decoder),
    (nextAux clock fuel d).2.data = d.data := by
  intro fuel
  induction fuel with
  | zero => intro d; rfl
  | succ f ihf =>
    intro d
    simp only [nextAux]
    split
    · split
      · split <;> rfl
      · split
        · split <;> rfl
        · split
          · split <;> rfl
          · split
            · split <;> rfl
            · exact ihf _
    · rfl

theorem nextAux_obs (clock clock' : Nat → Nat) : ∀ (fuel : Nat) (d d' : Decoder),
    d.data = d'.data → d.pos = d'.pos →
    eventObs (nextAux clock fuel d).1 = eventObs (nextAux clock' fuel d').1 ∧
    (nextAux clock fuel d).2.pos = (nextAux clock' fuel d').2.pos := by
  intro fuel
  induction fuel with
  | zero =>
    intro d d' h1 h2
    exact ⟨rfl, h2⟩
  | succ f ihf =>
    intro d d' h1 h2
    obtain ⟨dd, dp, dr⟩ := d
    obtain ⟨dd', dp', dr'⟩ := d'
    simp only at h1 h2
    subst h1
    subst h2
    simp only [nextAux]
    by_cases hpos : dp < dd.length
    · rw [if_pos hpos, if_pos hpos]
      have eA : decodeAdd ⟨dd, dp, dr'⟩ = decodeAdd ⟨dd, dp, dr⟩ := rfl
      have eU : decodeModify ⟨dd, dp, dr'⟩ = decodeModify ⟨dd, dp, dr⟩ := rfl
      have eE : decodeExecute ⟨dd, dp, dr'⟩ = decodeExecute ⟨dd, dp, dr⟩ := rfl
      have eD : decodeDelete ⟨dd, dp, dr'⟩ = decodeDelete ⟨dd, dp, dr⟩ := rfl
      by_cases h65 : byteAt dd dp = 65
      · rw [if_pos h65, if_pos h65, eA]
        cases hA : decodeAdd ⟨dd, dp, dr⟩ <;> exact ⟨rfl, rfl⟩
      · rw [if_neg h65, if_neg h65]
        by_cases h85 : byteAt dd dp = 85
        · rw [if_pos h85, if_pos h85, eU]
          cases hU : decodeModify ⟨dd, dp, dr⟩ <;> exact ⟨rfl, rfl⟩
        · rw [if_neg h85, if_neg h85]
          by_cases h69 : byteAt dd dp = 69
          · rw [if_pos h69, if_pos h69, eE]
            cases hE : decodeExecute ⟨dd, dp, dr⟩ <;> exact ⟨rfl, rfl⟩
          · rw [if_neg h69, if_neg h69]
            by_cases h68 : byteAt dd dp = 68
            · rw [if_pos h68, if_pos h68, eD]
              cases hD : decodeDelete ⟨dd, dp, dr⟩ <;> exact ⟨rfl, rfl⟩
            · rw [if_neg h68, if_neg h68]
              exact ihf _ _ rfl rfl
    · rw [if_neg hpos, if_neg hpos]
      exact ⟨rfl, rfl⟩

theorem next_obs (clock clock' : Nat → Nat) (d d' : Decoder)
    (h1 : d.data = d'.data) (h2 : d.pos = d'.pos) :
    eventObs (d.next clock).1 = eventObs (d'.next clock').1 ∧
    (d.next clock).2.pos = (d'.next clock').2.pos := by
  unfold Decoder.next
  rw [show d.data.length - d.pos = d'.data.length - d'.pos by rw [h1, h2]]
  exact nextAux_obs clock clock' _ d d' h1 h2

theorem next_data (clock : Nat → Nat) (d : Decoder) :
    (d.next clock).2.data = d.data :=
  nextAux_data clock _ d

theorem runEvents_obs (clock clock' : Nat → Nat) : ∀ (n : Nat) (d d' : Decoder),
    d.data = d'.data → d.pos = d'.pos →
    (runEvents clock d n).map eventObs = (runEvents clock' d' n).map eventObs := by
  intro n
  induction n with
  | zero => intro d d' h1 h2; rfl
  | succ m ihm =>
    intro d d' h1 h2
    have hobs := next_obs clock clock' d d' h1 h2
    simp only [runEvents, List.map_cons]
    rw [hobs.1]
    congr 1
    exact ihm _ _ (by rw [next_data, next_data, h1]) hobs.2

theorem iterState_data (clock : Nat → Nat) : ∀ (n : Nat) (d : Decoder),
    (iterState clock d n).data = d.data := by
  intro n
  induction n with
  | zero => intro d; rfl
  | succ m ihm =>
    intro d
    simp only [iterState]
    rw [ihm, next_data]

theorem stuck_step (clock : Nat → Nat) (d : Decoder) (h : stuckRecord d) :
    d.next clock = (Event.invalid, ⟨d.data, d.pos, d.reads + 1⟩) := by
  have hpos : d.pos < d.data.length := by
    rcases h with ⟨_, hl, _⟩ | ⟨_, hl, _⟩ | ⟨_, hl, _⟩ <;> omega
  show nextAux clock (d.data.length - d.pos) d = _
  rw [show d.data.length - d.pos = (d.data.length - (d.pos + 1)) + 1 by omega]
  simp only [nextAux]
  rw [if_pos hpos]
  rcases h with ⟨hb, hl, hv⟩ | ⟨hb, hl, hv⟩ | ⟨hb, hl, hv⟩
  · have hdec : decodeAdd d = none := by
      simp only [decodeAdd]
      rw [if_pos hl, if_neg hv]
    rw [if_pos hb, hdec]
  · have hdec : decodeModify d = none := by
      simp only [decodeModify]
      rw [if_pos hl, if_neg (by simpa using hv)]
    rw [if_neg (by omega), if_pos hb, hdec]
  · have hdec : decodeExecute d = none := by
      simp only [decodeExecute]
      rw [if_pos hl, if_neg (by simpa using hv)]
    rw [if_neg (by omega), if_neg (by omega), if_pos hb, hdec]

end feed

/-- Claim C6: (a) when the byte at the cursor is not one of the four known
tags, next() advances the cursor by exactly one byte (consuming one clock
read) and retries decoding from the new position, its result being exactly
the result of decoding from cursor+1; (b) when the byte is a known tag but
fewer than the record length L(t) bytes remain, next() returns the Invalid
event and the cursor does not advance at all (only the clock-read count
grows). -/
theorem C6_resync_and_truncation (clock : Nat → Nat) (d : feed.Decoder)
    (hpos : d.pos < d.data.length) :
    (feed.byteAt d.data d.pos ≠ 65 → feed.byteAt d.data d.pos ≠ 85 →
      feed.byteAt d.data d.pos ≠ 69 → feed.byteAt d.data d.pos ≠ 68 →
      d.next clock = feed.Decoder.next clock ⟨d.data, d.pos + 1, d.reads + 1⟩) ∧
    ((feed.byteAt d.data d.pos = 65 ∧ d.data.length < d.pos + 36) ∨
     (feed.byteAt d.data d.pos = 85 ∧ d.data.length < d.pos + 29) ∨
     (feed.byteAt d.data d.pos = 69 ∧ d.data.length < d.pos + 21) ∨
     (feed.byteAt d.data d.pos = 68 ∧ d.data.length < d.pos + 17) →
      d.next clock = (feed.Event.invalid, ⟨d.data, d.pos, d.reads + 1⟩)) := by
  constructor
  · intro h65 h85 h69 h68
    show feed.nextAux clock (d.data.length - d.pos) d = _
    rw [show d.data.length - d.pos = (d.data.length - (d.pos + 1)) + 1 by omega]
    simp only [feed.nextAux]
    rw [if_pos hpos, if_neg h65, if_neg h85, if_neg h69, if_neg h68]
    rfl
  · intro hcase
    show feed.nextAux clock (d.data.length - d.pos) d = _
    rw [show d.data.length - d.pos = (d.data.length - (d.pos + 1)) + 1 by omega]
    simp only [feed.nextAux]
    rw [if_pos hpos]
    rcases hcase with ⟨hb, hl⟩ | ⟨hb, hl⟩ | ⟨hb, hl⟩ | ⟨hb, hl⟩
    · have hdec : feed.decodeAdd d = none := by
        unfold feed.decodeAdd
        rw [if_neg (by omega)]
      rw [if_pos hb, hdec]
    · have hdec : feed.decodeModify d = none := by
        unfold feed.decodeModify
        rw [if_neg (by omega)]
      rw [if_neg (by omega), if_pos hb, hdec]
    · have hdec : feed.decodeExecute d = none := by
        unfold feed.decodeExecute
        rw [if_neg (by omega)]
      rw [if_neg (by omega), if_neg (by omega), if_pos hb, hdec]
    · have hdec : feed.decodeDelete d = none := by
        unfold feed.decodeDelete
        rw [if_neg (by omega)]
      rw [if_neg (by omega), if_neg (by omega), if_neg (by omega), if_pos hb, hdec]

/-- Witness for C6: on the one-byte file [90] ('Z', unknown) next() equals
decoding from cursor 1; on the one-byte file [65] ('A', truncated) next()
returns Invalid without advancing. -/
theorem C6_witness :
    (feed.Decoder.mk0 [90]).pos < (feed.Decoder.mk0 [90]).data.length ∧
    feed.Decoder.next (fun n => n) (feed.Decoder.mk0 [90]) =
      feed.Decoder.next (fun n => n) ⟨[90], 1, 1⟩ ∧
    feed.Decoder.next (fun n => n) (feed.Decoder.mk0 [65]) =
      (feed.Event.invalid, ⟨[65], 0, 1⟩) :=
  ⟨by decide,
    (C6_resync_and_truncation (fun n => n) (feed.Decoder.mk0 [90]) (by decide)).1
      (by decide) (by decide) (by decide) (by decide),
    (C6_resync_and_truncation (fun n => n) (feed.Decoder.mk0 [65]) (by decide)).2
      (Or.inl ⟨by decide, by decide⟩)⟩

/-- Claim C7: after any number j of next() calls, reset() followed by n
next() calls yields exactly the event sequence of the first n calls on the
freshly constructed decoder — same count, kinds, payload fields and order
(decode_timestamp_us, taken from the clock oracle at decode time, is the
one field outside the comparison). -/
theorem C7_reset_referential_transparency (clock : Nat → Nat) (data : List Nat)
    (j n : Nat) :
    (feed.runEvents clock
        ((feed.iterState clock (feed.Decoder.mk0 data) j).reset) n).map feed.eventObs =
      (feed.runEvents clock (feed.Decoder.mk0 data) n).map feed.eventObs := by
  apply feed.runEvents_obs
  · show (feed.iterState clock (feed.Decoder.mk0 data) j).data = data
    rw [feed.iterState_data]
    rfl
  · rfl

/-- Claim C10: when the record at the cursor has a known tag and fits in
the remaining bytes but fails per-type validation (Add with side other
than 'B'/'S' or zero quantity; Modify with zero new quantity; Execute with
zero executed quantity), every subsequent next() call returns an Invalid
event with the cursor never moving, and has_next() stays true forever: the
decoder never advances past such a record. -/
theorem C10_invalid_record_stuck (clock : Nat → Nat) : ∀ (n : Nat) (d : feed.Decoder),
    feed.stuckRecord d →
    ((feed.runEvents clock d n).all
      (fun e => e.type == feed.EventType.INVALID)) = true ∧
    (feed.iterState clock d n).pos = d.pos ∧
    (feed.iterState clock d n).has_next = true := by
  intro n
  induction n with
  | zero =>
    intro d h
    refine ⟨rfl, rfl, ?_⟩
    have hpos : d.pos < d.data.length := by
      rcases h with ⟨_, hl, _⟩ | ⟨_, hl, _⟩ | ⟨_, hl, _⟩ <;> omega
    simp [feed.iterState, feed.Decoder.has_next, hpos]
  | succ m ihm =>
    intro d h
    have hstep := feed.stuck_step clock d h
    have h2 : feed.stuckRecord (⟨d.data, d.pos, d.reads + 1⟩ : feed.Decoder) := h
    have ihr := ihm ⟨d.data, d.pos, d.reads + 1⟩ h2
    refine ⟨?_, ?_, ?_⟩
    · simp only [feed.runEvents, hstep, List.all_cons]
      rw [ihr.1]
      rfl
    · simp only [feed.iterState, hstep]
      exact ihr.2.1
    · simp only [feed.iterState, hstep]
      exact ihr.2.2

/-- Witness for C10: a 36-byte Add record with invalid side byte 0 and
zero quantity leaves the decoder permanently stuck at position 0. -/
theorem C10_witness :
    feed.stuckRecord (feed.Decoder.mk0 (65 :: List.replicate 35 0)) ∧
    ((feed.runEvents (fun n => n) (feed.Decoder.mk0 (65 :: List.replicate 35 0)) 2).all
      (fun e => e.type == feed.EventType.INVALID)) = true ∧
    (feed.iterState (fun n => n) (feed.Decoder.mk0 (65 :: List.replicate 35 0)) 2).pos =
      (feed.Decoder.mk0 (65 :: List.replicate 35 0)).pos ∧
    (feed.iterState (fun n => n)
      (feed.Decoder.mk0 (65 :: List.replicate 35 0)) 2).has_next = true :=
  ⟨by decide,
    C10_invalid_record_stuck (fun n => n) 2
      (feed.Decoder.mk0 (65 :: List.replicate 35 0)) (by decide)⟩

/-- Counterexample for C8: the claim asserts that every ASCII string of
length at most 6 with no trailing spaces is stored right-space-padded to 6
bytes and round-trips through to_string; but the Symbol constructor copies
at most 5 characters (`if (len > 5) len = 5`), so the 6-character name
"ABCDEF" is stored as "ABCDE " and to_string returns "ABCDE". -/
theorem C8_counterexample :
    (feed.Symbol.ofBytes [65, 66, 67, 68, 69, 70]).bytes ≠
      [65, 66, 67, 68, 69, 70] ∧
    (feed.Symbol.ofBytes [65, 66, 67, 68, 69, 70]).to_string ≠
      [65, 66, 67, 68, 69, 70] := by
  decide

/-- Claim C8, amended: for every ASCII string of length at most 5 (the
constructor truncates longer inputs to 5 characters, so 6-character names
do not round-trip) with no trailing space, Symbol stores the bytes
right-space-padded to exactly 6, to_string returns the string unchanged,
and two Symbols compare equal iff all 6 stored bytes are equal. -/
theorem C8_symbol_roundtrip (s : List Nat) (hlen : s.length ≤ 5)
    (htrail : s.getLast? ≠ some 32) :
    (feed.Symbol.ofBytes s).bytes = s ++ List.replicate (6 - s.length) 32 ∧
    (feed.Symbol.ofBytes s).to_string = s ∧
    (∀ a b : feed.Symbol, feed.Symbol.beq a b = true ↔ a.bytes = b.bytes) := by
  have htake : s.take 5 = s := List.take_of_length_le hlen
  have hbytes : (feed.Symbol.ofBytes s).bytes = s ++ List.replicate (6 - s.length) 32 := by
    unfold feed.Symbol.ofBytes
    rw [htake]
  refine ⟨hbytes, ?_, ?_⟩
  · unfold feed.Symbol.to_string feed.trimTrailingSpaces
    rw [hbytes, List.reverse_append, List.reverse_replicate]
    rw [List.dropWhile_append_of_pos (by intro a ha; simp at ha; simp [ha.2])]
    cases hrev : s.reverse with
    | nil =>
      have hs : s = [] := by simpa using congrArg List.reverse hrev
      subst hs
      rfl
    | cons a t =>
      have hhead : s.getLast? = some a := by
        rw [← List.head?_reverse, hrev]
        rfl
      have ha32 : (a == 32) = false := by
        rcases eq_or_ne a 32 with h32 | h32
        · exact absurd (h32 ▸ hhead) htrail
        · simp [h32]
      rw [List.dropWhile_cons, ha32]
      simp only [Bool.false_eq_true, if_false]
      rw [← hrev, List.reverse_reverse]
  · intro a b
    unfold feed.Symbol.beq
    simp

/-- Witness for C8: the 4-character name "ABCD" is stored as "ABCD  " and
round-trips. -/
theorem C8_witness :
    (feed.Symbol.ofBytes [65, 66, 67, 68]).bytes =
      [65, 66, 67, 68] ++ List.replicate (6 - ([65, 66, 67, 68] : List Nat).length) 32 ∧
    (feed.Symbol.ofBytes [65, 66, 67, 68]).to_string = [65, 66, 67, 68] :=
  ⟨(C8_symbol_roundtrip [65, 66, 67, 68] (by decide) (by decide)).1,
    (C8_symbol_roundtrip [65, 66, 67, 68] (by decide) (by decide)).2.1⟩

namespace publish

theorem nlog2F_le : ∀ (fuel n : Nat), n ≤ fuel → 1 ≤ n → 2 ^ nlog2F fuel n ≤ n := by
  intro fuel
  induction fuel with
  | zero => intro n h1 h2; omega
  | succ f ihf =>
    intro n h1 h2
    simp only [nlog2F]
    by_cases hn : n ≤ 1
    · rw [if_pos hn]
      simpa using h2
    · rw [if_neg hn]
      have hd : n / 2 ≤ f := by omega
      have hd1 : 1 ≤ n / 2 := by omega
      have := ihf (n / 2) hd hd1
      calc 2 ^ (nlog2F f (n / 2) + 1) = 2 ^ nlog2F f (n / 2) * 2 := by ring
      _ ≤ (n / 2) * 2 := by omega
      _ ≤ n := by omega

theorem nlog2_le (n : Nat) (h : 1 ≤ n) : 2 ^ nlog2 n ≤ n :=
  nlog2F_le n n le_rfl h

theorem rhe_intCast (z : ℤ) : rhe (z : ℚ) = z := by
  unfold rhe
  have hf : ((z : ℚ)).floor = z := by
    rw [Rat.floor_def']
    simp
  rw [hf]
  simp

theorem rhe_natCast (n : ℕ) : rhe ((n : ℕ) : ℚ) = (n : ℤ) := by
  rw [← Int.cast_natCast]
  exact rhe_intCast _

theorem rat_floor_natCast (n : ℕ) : ((n : ℚ)).floor = (n : ℤ) := by
  rw [Rat.floor_def']
  simp

theorem qlog2_natCast (n : ℕ) (h : 1 ≤ n) : qlog2 (n : ℚ) = (nlog2 n : ℤ) := by
  unfold qlog2
  rw [if_pos (by exact_mod_cast h)]
  rw [show ((n : ℚ)).floor = (n : ℤ) from rat_floor_natCast n]
  simp

theorem roundB64_intCast (z : ℤ) (h : z.natAbs < 2 ^ 53) :
    roundB64 (z : ℚ) = (z : ℚ) := by
  by_cases hz : z = 0
  · subst hz
    simp [roundB64]
  · have hq : (z : ℚ) ≠ 0 := Int.cast_ne_zero.mpr hz
    have hn1 : 1 ≤ z.natAbs := by omega
    have ha : |(z : ℚ)| = ((z.natAbs : ℕ) : ℚ) := by
      rw [Int.cast_natAbs, Int.cast_abs]
    have he : nlog2 z.natAbs ≤ 52 := by
      have h1 := nlog2_le z.natAbs hn1
      by_contra hcon
      have : 2 ^ 53 ≤ 2 ^ nlog2 z.natAbs := Nat.pow_le_pow_right (by omega) (by omega)
      omega
    unfold roundB64
    rw [if_neg hq, ha, qlog2_natCast z.natAbs hn1]
    have hmax : ((nlog2 z.natAbs : ℤ) - 52) ⊔ (-1074) = (nlog2 z.natAbs : ℤ) - 52 := by
      apply max_eq_left
      omega
    rw [hmax]
    have hsc : (nlog2 z.natAbs : ℤ) - 52 = -((52 - nlog2 z.natAbs : ℕ) : ℤ) := by
      omega
    rw [hsc]
    set w : ℕ := 52 - nlog2 z.natAbs with hw
    have hpow : (2 : ℚ) ^ (-(w : ℤ)) = ((2 : ℚ) ^ w)⁻¹ := by
      rw [zpow_neg, zpow_natCast]
    rw [hpow, div_eq_mul_inv, inv_inv]
    have hcast : ((z.natAbs : ℕ) : ℚ) * (2 : ℚ) ^ w = (((z.natAbs * 2 ^ w : ℕ) : ℤ) : ℚ) := by
      push_cast
      rw [ha]
    rw [hcast, rhe_intCast]
    have hne : ((2 : ℚ) ^ w) ≠ 0 := pow_ne_zero _ (by norm_num)
    rcases lt_trichotomy z 0 with hneg | hzero | hpos
    · rw [if_pos (by exact_mod_cast hneg)]
      push_cast
      rw [abs_of_neg (show (z : ℚ) < 0 by exact_mod_cast hneg)]
      field_simp
    · omega
    · rw [if_neg (show ¬((z : ℚ) < 0) from not_lt.mpr (by exact_mod_cast hpos.le))]
      push_cast
      rw [abs_of_pos (show (0 : ℚ) < (z : ℚ) by exact_mod_cast hpos)]
      field_simp

end publish

/-- Counterexample for C9: the claim asserts the emitted price string is
the exact nine-fractional-digit decimal of price/10^9 for the full int64
range with no rounding error; but format_price computes through IEEE-754
binary64, and at price 9223372036854775807 (2^63 − 1, ulp ≈ 1907 nano at
that magnitude) it prints "9223372036.854776382" instead of the exact
"9223372036.854775807". -/
theorem C9_counterexample :
    publish.format_price 9223372036854775807 ≠
      publish.spec_exact_fixed9 9223372036854775807 :=
  of_decide_eq_true (by with_unfolding_all rfl)

/-- Claim C9, amended: the emitted price string equals the exact
nine-fractional-digit decimal of price/10^9 for every price that is a
whole multiple of 10^9 nano-units with magnitude below 2^53 (where the
cast to double and the division are both exact); exactness does not
extend to the full int64 range. -/
theorem C9_price_format_exact (kunits : ℤ) (h : (kunits * 10 ^ 9).natAbs < 2 ^ 53) :
    publish.format_price (kunits * 10 ^ 9) =
      publish.spec_exact_fixed9 (kunits * 10 ^ 9) := by
  have hk : kunits.natAbs < 2 ^ 53 := by
    have h1 : kunits.natAbs ≤ (kunits * 10 ^ 9).natAbs := by
      rw [Int.natAbs_mul]
      have h10 : (0 : ℕ) < ((10 : ℤ) ^ 9).natAbs := by norm_num
      exact Nat.le_mul_of_pos_right _ h10
    omega
  unfold publish.format_price publish.castDouble publish.divDouble
  rw [publish.roundB64_intCast _ h]
  have hdiv : ((kunits * 10 ^ 9 : ℤ) : ℚ) / ((10 : ℚ) ^ 9) = (kunits : ℚ) := by
    rw [Int.cast_mul, Int.cast_pow, Int.cast_ofNat, mul_div_assoc,
      div_self (by norm_num), mul_one]
  rw [hdiv, publish.roundB64_intCast kunits hk]
  unfold publish.formatFixed9 publish.spec_exact_fixed9
  have habs2 : |(kunits : ℚ)| = ((kunits.natAbs : ℕ) : ℚ) := by
    rw [Int.cast_natAbs, Int.cast_abs]
  have habs : |(kunits : ℚ)| * 10 ^ 9 = ((kunits.natAbs * 10 ^ 9 : ℕ) : ℚ) := by
    rw [habs2, Nat.cast_mul, Nat.cast_pow]
    norm_num
  rw [habs, publish.rhe_natCast]
  have hN : ((kunits.natAbs * 10 ^ 9 : ℕ) : ℤ).toNat = kunits.natAbs * 10 ^ 9 := by
    omega
  rw [hN]
  have hNspec : (kunits * 10 ^ 9).natAbs = kunits.natAbs * 10 ^ 9 := by
    rw [Int.natAbs_mul]
    norm_num
  rw [hNspec]
  have hsign : ((kunits : ℚ) < 0) ↔ (kunits * 10 ^ 9 < 0) := by
    constructor
    · intro hlt
      have hlt' : kunits < 0 := by exact_mod_cast hlt
      nlinarith
    · intro hlt
      have hlt' : kunits < 0 := by nlinarith
      exact_mod_cast hlt'
  by_cases hneg : (kunits : ℚ) < 0
  · rw [if_pos hneg, if_pos (hsign.mp hneg)]
  · rw [if_neg hneg, if_neg (fun hc => hneg (hsign.mpr hc))]

/-- Witness for C9: 150 currency units (150 * 10^9 nano) prints exactly. -/
theorem C9_witness :
    ((150 : ℤ) * 10 ^ 9).natAbs < 2 ^ 53 ∧
    publish.format_price (150 * 10 ^ 9) = publish.spec_exact_fixed9 (150 * 10 ^ 9) :=
  ⟨by decide, C9_price_format_exact 150 (by decide)⟩
